import Mathlib

/-!
Verification of the RAKE keyword-extraction core (`rake_nltk/rake.py`).

A shallow embedding of the pure core of the Rapid Automatic Keyword
Extraction implementation, together with proofs of the behavioural
properties stated in its specification.

Modelling conventions:
* Python `str` is `String`; a phrase (`Tuple[str, ...]`) is `List String`.
* Python dictionaries (`Counter`, `defaultdict(int)`) are association
  lists `List (String × Nat)` with first-match lookup and a default of
  `0` for missing keys, mirroring `defaultdict` / `Counter` reads.
* Python `float` scores are modelled as `Rat`; the ranking arithmetic
  (`1.0 * d / f` and sums thereof) is carried out exactly.
* A raised `ZeroDivisionError` is modelled as `Option.none` propagating
  out of the computation that raises it.
* Python sets that are only membership-tested are modelled as lists.
-/

namespace RakeNltk

/-- The `Metric` enum of `rake.py`: the three ranking metrics. -/
inductive Metric where
  | degreeToFrequencyRatio
  | wordDegree
  | wordFrequency
deriving DecidableEq, Repr

/-- Association-list model of a Python `dict`/`Counter` from words to counts. -/
abbrev Dict := List (String × Nat)

/-- Lookup with the `defaultdict(int)` / `Counter` read semantics:
a missing key reads as `0`. -/
def dictGet : Dict → String → Nat
  | [], _ => 0
  | kv :: rest, k => if kv.1 = k then kv.2 else dictGet rest k

/-- Model of `d[k] += 1` on a counter dictionary (inserting `k ↦ 1` when absent). -/
def dictIncr : Dict → String → Dict
  | [], k => [(k, 1)]
  | kv :: rest, k => if kv.1 = k then (kv.1, kv.2 + 1) :: rest else kv :: dictIncr rest k

/-- Model of `sum(d.values())` on a counter dictionary. -/
def sumValues (d : Dict) : Nat :=
  (d.map (fun kv => kv.2)).sum

/-- Association-list model of the nested `defaultdict` co-occurrence graph. -/
abbrev Graph := List (String × Dict)

/-- Read `graph[w]`; a missing outer key reads as the empty inner dictionary. -/
def graphGet : Graph → String → Dict
  | [], _ => []
  | kv :: rest, k => if kv.1 = k then kv.2 else graphGet rest k

/-- Model of `graph[w][cw] += 1` on the nested dictionary. -/
def graphIncr : Graph → String → String → Graph
  | [], w, cw => [(w, [(cw, 1)])]
  | kv :: rest, w, cw =>
    if kv.1 = w then (kv.1, dictIncr kv.2 cw) :: rest else kv :: graphIncr rest w cw

/-- Model of `word.lower()`: `String.toLower` stated structurally, character by
character over the string's character list (see `lowerWord_eq_toLower`). -/
def lowerWord (s : String) : String :=
  String.mk (s.data.map Char.toLower)

/-- Model of `itertools.product(l₁, l₂)`: all ordered pairs, in row-major order. -/
def pyProduct (l₁ l₂ : List String) : List (String × String) :=
  l₁.flatMap (fun a => l₂.map (fun b => (a, b)))

/-- Model of `Rake._build_frequency_dist`: `Counter(chain.from_iterable(phrase_list))`.
The counter is built by tallying every word occurrence of every phrase. -/
def buildFrequencyDist (phraseList : List (List String)) : Dict :=
  phraseList.flatten.foldl dictIncr []

/-- The co-occurrence graph of `Rake._build_word_co_occurance_graph`:
for each phrase, for every ordered pair `(word, coword)` of
`product(phrase, phrase)`, increment `graph[word][coword]`. -/
def buildCoOccuranceGraph (phraseList : List (List String)) : Graph :=
  phraseList.foldl
    (fun g phrase => (pyProduct phrase phrase).foldl (fun g pr => graphIncr g pr.1 pr.2) g)
    []

/-- The degree table of `Rake._build_word_co_occurance_graph`:
`degree[key] = sum(co_occurance_graph[key].values())` for every key of the
graph, over a `defaultdict(int)` (so absent words read as degree `0`). -/
def buildDegree (phraseList : List (List String)) : Dict :=
  (buildCoOccuranceGraph phraseList).map (fun kv => (kv.1, sumValues kv.2))

/-- Model of `' '.join(phrase)`: the display string of a phrase. -/
def joinWords (phrase : List String) : String :=
  String.intercalate " " phrase

/-- One word's contribution to a phrase rank in `Rake._build_ranklist`:
`1.0 * degree[word] / frequency[word]`, `1.0 * degree[word]`, or
`1.0 * frequency[word]` according to the metric (the `else` branch of the
source covers `WORD_FREQUENCY`).  A `frequency` of `0` under the ratio
metric is Python's `ZeroDivisionError`, modelled as `none`. -/
def wordScore (metric : Metric) (freq deg : Dict) (word : String) : Option Rat :=
  match metric with
  | .degreeToFrequencyRatio =>
    if dictGet freq word = 0 then none
    else some ((dictGet deg word : Rat) / (dictGet freq word : Rat))
  | .wordDegree => some (dictGet deg word : Rat)
  | .wordFrequency => some (dictGet freq word : Rat)

/-- One step of the rank accumulation `rank += word_score`; an already
raised error (`none`) is propagated. -/
def rankStep (metric : Metric) (freq deg : Dict) (acc : Option Rat) (word : String) :
    Option Rat :=
  acc.bind (fun r => (wordScore metric freq deg word).map (fun s => r + s))

/-- The inner loop of `Rake._build_ranklist`: `rank` starts at `0.0` and the
word scores are added left to right; a raised division error aborts. -/
def phraseRank (metric : Metric) (freq deg : Dict) (phrase : List String) : Option Rat :=
  phrase.foldl (rankStep metric freq deg) (some 0)

/-- One entry appended to `rank_list`: `(rank, ' '.join(phrase))`. -/
def rankEntry (metric : Metric) (freq deg : Dict) (phrase : List String) :
    Option (Rat × String) :=
  (phraseRank metric freq deg phrase).map (fun r => (r, joinWords phrase))

/-- The descending order `self.rank_list.sort(reverse=True)` sorts by:
Python compares `(float, str)` tuples lexicographically, so `a` precedes
`b` when `a`'s score is larger, or the scores are equal and `a`'s string
is lexicographically greater or equal. -/
def RankPairGE (a b : Rat × String) : Prop :=
  b.1 < a.1 ∨ (a.1 = b.1 ∧ b.2 ≤ a.2)

instance : DecidableRel RankPairGE := fun a b =>
  inferInstanceAs (Decidable (b.1 < a.1 ∨ (a.1 = b.1 ∧ b.2 ≤ a.2)))

instance : IsTotal (Rat × String) RankPairGE where
  total a b := by
    unfold RankPairGE
    rcases lt_trichotomy a.1 b.1 with h | h | h
    · exact Or.inr (Or.inl h)
    · rcases le_total a.2 b.2 with h2 | h2
      · exact Or.inr (Or.inr ⟨h.symm, h2⟩)
      · exact Or.inl (Or.inr ⟨h, h2⟩)
    · exact Or.inl (Or.inl h)

instance : IsTrans (Rat × String) RankPairGE where
  trans a b c hab hbc := by
    unfold RankPairGE at *
    rcases hab with h1 | ⟨h1, h1s⟩
    · rcases hbc with h2 | ⟨h2, _⟩
      · exact Or.inl (h2.trans h1)
      · exact Or.inl (h2 ▸ h1)
    · rcases hbc with h2 | ⟨h2, h2s⟩
      · exact Or.inl (h1 ▸ h2)
      · exact Or.inr ⟨h1.trans h2, h2s.trans h1s⟩

/-- Model of `self.rank_list.sort(reverse=True)`: Python's `list.sort` is a stable
sort; a stable sort is extensionally determined by its comparison, so it is
modelled by stable insertion sort under the descending tuple order. -/
def sortRankList (l : List (Rat × String)) : List (Rat × String) :=
  List.insertionSort RankPairGE l

/-- The entry-building loop of `Rake._build_ranklist`: one `(rank, joined)`
entry is appended per phrase, in phrase-list order; a raised
`ZeroDivisionError` aborts the loop and propagates (`none`). -/
def buildEntries (metric : Metric) (freq deg : Dict) :
    List (List String) → Option (List (Rat × String))
  | [] => some []
  | phrase :: rest =>
    match rankEntry metric freq deg phrase with
    | some e => (buildEntries metric freq deg rest).map (fun es => e :: es)
    | none => none

/-- Model of `Rake._build_ranklist`: build `(rank, joined)` entries for every phrase
in order, then sort descending.  `none` models a `ZeroDivisionError` raised
while ranking (under the ratio metric with a zero frequency). -/
def buildRanklist (metric : Metric) (freq deg : Dict) (phraseList : List (List String)) :
    Option (List (Rat × String)) :=
  match buildEntries metric freq deg phraseList with
  | some entries => some (sortRankList entries)
  | none => none

/-- Model of `itertools.groupby(word_list, key)` for a Boolean key function: the list
of `(key value, group)` pairs of maximal runs of consecutive elements with
the same key value. -/
def groupByKey (f : String → Bool) : List String → List (Bool × List String)
  | [] => []
  | w :: ws =>
    match groupByKey f ws with
    | [] => [(f w, [w])]
    | (k, g) :: rest =>
      if f w = k then (k, w :: g) :: rest else (f w, [w]) :: (k, g) :: rest

/-- Model of `Rake._get_phrase_list_from_words`: group the words of a sentence by
membership outside `to_ignore`, keep the groups of non-ignored words, and
keep only phrases whose length lies in `[min_length, max_length]`. -/
def getPhraseListFromWords (toIgnore : List String) (minLength maxLength : Nat)
    (wordList : List String) : List (List String) :=
  let groups := groupByKey (fun x => decide (x ∉ toIgnore)) wordList
  let phrases := (groups.filter (fun g => g.1)).map (fun g => g.2)
  phrases.filter (fun x => decide (minLength ≤ x.length ∧ x.length ≤ maxLength))

/-- The repeated-phrase dropping loop of `Rake._generate_phrases`: keep a
phrase when it is not in the tracker set, and add it to the tracker. -/
def removeRepeated (tracker : List (List String)) : List (List String) → List (List String)
  | [] => []
  | p :: rest =>
    if p ∈ tracker then removeRepeated tracker rest
    else p :: removeRepeated (p :: tracker) rest

/-- Model of `Rake._generate_phrases`: tokenize each sentence, lower-case the words,
extract the phrase runs per sentence in order, and optionally drop repeated
phrases keeping first occurrences. -/
def generatePhrases (wordTokenizer : String → List String) (toIgnore : List String)
    (minLength maxLength : Nat) (includeRepeatedPhrases : Bool)
    (sentences : List String) : List (List String) :=
  let phraseList := sentences.flatMap
    (fun sentence =>
      getPhraseListFromWords toIgnore minLength maxLength
        ((wordTokenizer sentence).map lowerWord))
  if includeRepeatedPhrases then phraseList else removeRepeated [] phraseList

/-- The configuration of a `Rake` instance, as fixed by `Rake.__init__`
(the sentence tokenizer is not needed by `extract_keywords_from_sentences`). -/
structure RakeConfig where
  metric : Metric
  toIgnore : List String
  minLength : Nat
  maxLength : Nat
  includeRepeatedPhrases : Bool
  wordTokenizer : String → List String

/-- The mutable result attributes of a `Rake` instance. -/
structure RakeState where
  frequencyDist : Dict
  degree : Dict
  rankList : List (Rat × String)
  rankedPhrases : List String
deriving DecidableEq

/-- Model of `Rake.extract_keywords_from_sentences`: rebuild every table from the
freshly generated phrase list; the previous state `prev` is never read.
`none` models a `ZeroDivisionError` escaping the ranking step. -/
def extractKeywordsFromSentences (cfg : RakeConfig) (prev : RakeState)
    (sentences : List String) : Option RakeState :=
  let phraseList := generatePhrases cfg.wordTokenizer cfg.toIgnore
    cfg.minLength cfg.maxLength cfg.includeRepeatedPhrases sentences
  let freq := buildFrequencyDist phraseList
  let deg := buildDegree phraseList
  match buildRanklist cfg.metric freq deg phraseList with
  | some rl =>
    some { frequencyDist := freq, degree := deg, rankList := rl,
           rankedPhrases := rl.map (fun ph => ph.2) }
  | none => none

/-- The `ranking_metric` argument as received by `Rake.__init__`: either an
actual member of the `Metric` enum, or (Python being dynamically typed) any
other value, of any type. -/
inductive MetricArg (α : Type) where
  | metricVal (m : Metric)
  | other (a : α)

/-- Lines 73–77 of `Rake.__init__`: keep the argument when
`isinstance(ranking_metric, Metric)`, otherwise fall back to the
degree-to-frequency ratio. -/
def resolveMetric {α : Type} : MetricArg α → Metric
  | .metricVal m => m
  | .other _ => .degreeToFrequencyRatio

/-- Lines 79–84 of `Rake.__init__`: `if stopwords:` — the stopword override
is used only when it is truthy, i.e. present and non-empty; otherwise the
default language stopword list is used. -/
def resolveStopwords (stopwords : Option (List String)) (languageStopwords : List String) :
    List String :=
  match stopwords with
  | some s => if s.isEmpty then languageStopwords else s
  | none => languageStopwords

/-- Lines 86–91 of `Rake.__init__`: `if punctuations:` — the punctuation
override is used only when it is truthy, i.e. present and non-empty;
otherwise the default punctuation set is used. -/
def resolvePunctuations (punctuations : Option (List String)) (defaultPunctuations : List String) :
    List String :=
  match punctuations with
  | some s => if s.isEmpty then defaultPunctuations else s
  | none => defaultPunctuations

/-- Stated from the specification's words, for comparison with the code's
repeat-dropping loop: "the phrase list with every occurrence of a distinct
word-sequence after its first removed and the relative order of the
retained first occurrences preserved" — keep each head (a first occurrence)
and delete all later occurrences of it. -/
def keepFirstOcc : List (List String) → List (List String)
  | [] => []
  | p :: rest => p :: keepFirstOcc (rest.filter (fun q => decide (q ≠ p)))
termination_by l => l.length
decreasing_by
  simp only [List.length_cons]
  exact Nat.lt_succ_of_le (List.length_filter_le _ _)

/-- Stated from the specification's words: `p` is a maximal contiguous run
of tokens of `ws` that are not in the ignore set — non-empty, made of
non-ignored tokens, and bordered on each side by either the sentence
boundary or an ignored token. -/
def IsMaximalRun (toIgnore : List String) (ws p : List String) : Prop :=
  p ≠ [] ∧ (∀ w ∈ p, w ∉ toIgnore) ∧
    ∃ pre suf, ws = pre ++ p ++ suf ∧
      (pre = [] ∨ ∃ x, pre.getLast? = some x ∧ x ∈ toIgnore) ∧
      (suf = [] ∨ ∃ x, suf.head? = some x ∧ x ∈ toIgnore)

/-! ## Helper lemmas: the counter dictionary -/

theorem lowerWord_eq_toLower (s : String) : lowerWord s = s.toLower := by
  cases s with
  | mk data => rw [lowerWord, String.toLower, String.map_eq]

theorem dictGet_dictIncr (d : Dict) (k k' : String) :
    dictGet (dictIncr d k) k' = dictGet d k' + (if k = k' then 1 else 0) := by
  induction d with
  | nil =>
    by_cases h : k = k' <;> simp [dictIncr, dictGet, h]
  | cons kv rest ih =>
    by_cases h1 : kv.1 = k
    · by_cases h2 : kv.1 = k'
      · have hk : k = k' := h1.symm.trans h2
        simp [dictIncr, dictGet, h1, h2, hk]
      · have hk : ¬ k = k' := fun he => h2 (h1.trans he)
        simp [dictIncr, dictGet, h1, h2, hk]
    · by_cases h2 : kv.1 = k'
      · have hk : ¬ k = k' := fun he => h1 (h2.trans he.symm)
        simp only [dictIncr]
        rw [if_neg h1]
        simp [dictGet, h2, hk]
      · simp [dictIncr, dictGet, h1, h2, ih]

theorem dictGet_foldl_dictIncr (l : List String) (d : Dict) (w : String) :
    dictGet (l.foldl dictIncr d) w = dictGet d w + l.count w := by
  induction l generalizing d with
  | nil => simp [List.count_nil]
  | cons a l ih =>
    simp only [List.foldl_cons, ih, dictGet_dictIncr, List.count_cons]
    by_cases h : a = w <;> simp [h, beq_iff_eq]
    omega

theorem dictGet_buildFrequencyDist (phraseList : List (List String)) (w : String) :
    dictGet (buildFrequencyDist phraseList) w = (phraseList.map (fun p => p.count w)).sum := by
  simp [buildFrequencyDist, dictGet_foldl_dictIncr, dictGet, List.count_flatten]

/-! ## Helper lemmas: the co-occurrence graph and degree table -/

theorem sumValues_dictIncr (d : Dict) (k : String) :
    sumValues (dictIncr d k) = sumValues d + 1 := by
  induction d with
  | nil => simp [dictIncr, sumValues]
  | cons kv rest ih =>
    by_cases h : kv.1 = k
    · simp [dictIncr, h, sumValues]
      omega
    · simp only [dictIncr, if_neg h, sumValues, List.map_cons, List.sum_cons] at *
      omega

theorem graphGet_graphIncr (g : Graph) (w cw w' : String) :
    graphGet (graphIncr g w cw) w'
      = if w = w' then dictIncr (graphGet g w) cw else graphGet g w' := by
  induction g with
  | nil =>
    by_cases h : w = w' <;> simp [graphIncr, graphGet, dictIncr, h]
  | cons kv rest ih =>
    by_cases h1 : kv.1 = w
    · by_cases h2 : kv.1 = w'
      · have hw : w = w' := h1.symm.trans h2
        simp [graphIncr, graphGet, h1, h2, hw]
      · have hw : ¬ w = w' := fun he => h2 (h1.trans he)
        simp [graphIncr, graphGet, h1, h2, hw]
    · by_cases h2 : kv.1 = w'
      · have hw : ¬ w = w' := fun he => h1 (h2.trans he.symm)
        simp only [graphIncr]
        rw [if_neg h1]
        simp [graphGet, h2, hw]
      · simp [graphIncr, graphGet, h1, h2, ih]

theorem dictGet_map_sumValues (g : Graph) (w : String) :
    dictGet (g.map (fun kv => (kv.1, sumValues kv.2))) w = sumValues (graphGet g w) := by
  induction g with
  | nil => simp [dictGet, graphGet, sumValues]
  | cons kv rest ih =>
    by_cases h : kv.1 = w <;> simp [dictGet, graphGet, h, ih]

theorem sumValues_graphGet_foldl_pairs (prs : List (String × String)) (g : Graph) (w : String) :
    sumValues (graphGet (prs.foldl (fun g pr => graphIncr g pr.1 pr.2) g) w)
      = sumValues (graphGet g w) + prs.countP (fun pr => pr.1 == w) := by
  induction prs generalizing g with
  | nil => simp
  | cons pr rest ih =>
    simp only [List.foldl_cons, ih, graphGet_graphIncr, List.countP_cons]
    by_cases h : pr.1 = w <;> simp [h, sumValues_dictIncr]
    omega

theorem countP_fst_pyProduct (p q : List String) (w : String) :
    (pyProduct p q).countP (fun pr => pr.1 == w) = p.count w * q.length := by
  induction p with
  | nil => simp [pyProduct]
  | cons a l ih =>
    simp only [pyProduct, List.flatMap_cons, List.countP_append, List.countP_map] at *
    simp only [List.count_cons, ih]
    by_cases h : a = w
    · subst h
      simp [Function.comp_def, List.countP_true, Nat.add_mul]
      omega
    · have hc : ((fun pr : String × String => pr.1 == w) ∘ fun b => (a, b)) = fun _ => false := by
        funext b
        simp [Function.comp_def, h]
      simp [hc, List.countP_false, h, beq_iff_eq]

theorem sumValues_graphGet_foldl_phrases (phrases : List (List String)) (g : Graph)
    (w : String) :
    sumValues (graphGet
        (phrases.foldl
          (fun g phrase => (pyProduct phrase phrase).foldl (fun g pr => graphIncr g pr.1 pr.2) g)
          g) w)
      = sumValues (graphGet g w) + (phrases.map (fun p => p.count w * p.length)).sum := by
  induction phrases generalizing g with
  | nil => simp
  | cons p rest ih =>
    simp only [List.foldl_cons, ih, sumValues_graphGet_foldl_pairs, countP_fst_pyProduct,
      List.map_cons, List.sum_cons]
    omega

theorem dictGet_buildDegree (phraseList : List (List String)) (w : String) :
    dictGet (buildDegree phraseList) w
      = (phraseList.map (fun p => p.count w * p.length)).sum := by
  rw [buildDegree, dictGet_map_sumValues, buildCoOccuranceGraph,
    sumValues_graphGet_foldl_phrases]
  simp [graphGet, sumValues]

theorem sum_counts_over_filter (phrases : List (List String)) (w : String) :
    ((phrases.filter (fun p => decide (w ∈ p))).map (fun p => p.length * p.count w)).sum
      = (phrases.map (fun p => p.length * p.count w)).sum := by
  induction phrases with
  | nil => simp
  | cons p rest ih =>
    by_cases h : w ∈ p
    · simp [List.filter_cons, h, ih]
    · simp [List.filter_cons, h, ih, List.count_eq_zero.mpr h]

/-! ## Claim theorems: frequency and degree invariants -/

/-- C2: for every phrase list and word `w`, the degree table satisfies
`degree[w] = Σ over phrases p containing w of len(p) × (count of w in p)`
(ordered co-occurrence pairs with self-pairs included, so a word occurring
twice in a phrase of length `n` contributes `2·n` from that phrase). -/
theorem degree_invariant (phraseList : List (List String)) (w : String) :
    dictGet (buildDegree phraseList) w
      = ((phraseList.filter (fun p => decide (w ∈ p))).map
          (fun p => p.length * p.count w)).sum := by
  rw [sum_counts_over_filter, dictGet_buildDegree]
  simp [Nat.mul_comm]

/-- C6: for every phrase list and word `w`, the frequency table
satisfies `frequency[w] = Σ over phrases p of (count of w in p)`, and a
word absent from every phrase has frequency `0`. -/
theorem frequency_invariant (phraseList : List (List String)) (w : String) :
    dictGet (buildFrequencyDist phraseList) w = (phraseList.map (fun p => p.count w)).sum ∧
    ((∀ p ∈ phraseList, w ∉ p) → dictGet (buildFrequencyDist phraseList) w = 0) := by
  refine ⟨dictGet_buildFrequencyDist _ _, fun h => ?_⟩
  rw [dictGet_buildFrequencyDist]
  refine List.sum_eq_zero ?_
  intro x hx
  rcases List.mem_map.mp hx with ⟨p, hp, rfl⟩
  exact List.count_eq_zero.mpr (h p hp)

/-- Witness for `frequency_invariant` at a concrete phrase list: the word
`blue` occurs in no phrase, so its frequency is `0`. -/
theorem frequency_invariant_witness :
    dictGet (buildFrequencyDist [["red", "apples"], ["good"], ["red"], ["flavour"]]) "blue"
      = 0 :=
  (frequency_invariant [["red", "apples"], ["good"], ["red"], ["flavour"]] "blue").2
    (by decide)

/-! ## Repeat filtering -/

theorem removeRepeated_eq_keepFirstOcc (tracker l : List (List String)) :
    removeRepeated tracker l = keepFirstOcc (l.filter (fun p => decide (p ∉ tracker))) := by
  induction l generalizing tracker with
  | nil => simp [removeRepeated, keepFirstOcc]
  | cons p rest ih =>
    rw [List.filter_cons]
    by_cases h : p ∈ tracker
    · have hd : decide (p ∉ tracker) = false := by simp [h]
      rw [hd]
      simp only [Bool.false_eq_true, if_neg (by simp : ¬ (false = true))]
      simp only [removeRepeated, if_pos h]
      exact ih tracker
    · have hd : decide (p ∉ tracker) = true := by simp [h]
      rw [hd, if_pos rfl]
      simp only [removeRepeated, if_neg h, keepFirstOcc]
      refine congrArg (fun t => p :: t) ?_
      rw [ih (p :: tracker), List.filter_filter]
      refine congrArg keepFirstOcc (List.filter_congr ?_)
      intro x _
      by_cases hp : x = p <;> by_cases ht : x ∈ tracker <;>
        simp [hp, ht, List.mem_cons]

/-- C4: for every tokenizer, ignore set, length bounds and sentence
list, the phrase list generated with `include_repeated_phrases = false`
equals the phrase list generated with it `true` with every occurrence of a
distinct word-sequence after its first removed, order preserved. -/
theorem generate_phrases_no_repeats (wordTokenizer : String → List String)
    (toIgnore : List String) (minLength maxLength : Nat) (sentences : List String) :
    generatePhrases wordTokenizer toIgnore minLength maxLength false sentences
      = keepFirstOcc (generatePhrases wordTokenizer toIgnore minLength maxLength true sentences) := by
  simp only [generatePhrases, if_pos, if_neg, Bool.false_eq_true, ite_false, ite_true]
  rw [removeRepeated_eq_keepFirstOcc]
  refine congrArg keepFirstOcc ?_
  refine List.filter_eq_self.mpr ?_
  intro a _
  simp

/-! ## Ranking: error propagation and sortedness -/

theorem foldl_rankStep_none (metric : Metric) (freq deg : Dict) (l : List String) :
    l.foldl (rankStep metric freq deg) none = none := by
  induction l with
  | nil => rfl
  | cons w rest ih => simpa [rankStep] using ih

theorem foldl_rankStep_some_iff (metric : Metric) (freq deg : Dict) (p : List String)
    (r : Rat) :
    (p.foldl (rankStep metric freq deg) (some r)).isSome
      ↔ ∀ w ∈ p, (wordScore metric freq deg w).isSome := by
  induction p generalizing r with
  | nil => simp
  | cons w rest ih =>
    cases hw : wordScore metric freq deg w with
    | some s =>
      simp [rankStep, hw, ih]
    | none =>
      simp [rankStep, hw, foldl_rankStep_none]

theorem phraseRank_isSome_iff (metric : Metric) (freq deg : Dict) (p : List String) :
    (phraseRank metric freq deg p).isSome
      ↔ ∀ w ∈ p, (wordScore metric freq deg w).isSome :=
  foldl_rankStep_some_iff metric freq deg p 0

theorem buildEntries_isSome_iff (metric : Metric) (freq deg : Dict)
    (phrases : List (List String)) :
    (buildEntries metric freq deg phrases).isSome
      ↔ ∀ p ∈ phrases, (phraseRank metric freq deg p).isSome := by
  induction phrases with
  | nil => simp [buildEntries]
  | cons p rest ih =>
    constructor
    · intro h q hq
      cases hp : phraseRank metric freq deg p with
      | none =>
        rw [buildEntries] at h
        simp [rankEntry, hp] at h
      | some r =>
        cases he : buildEntries metric freq deg rest with
        | none =>
          rw [buildEntries] at h
          simp [rankEntry, hp, he] at h
        | some es =>
          rcases List.mem_cons.mp hq with rfl | hq2
          · simp [hp]
          · exact (ih.mp (by simp [he])) q hq2
    · intro h
      have hp : (phraseRank metric freq deg p).isSome := h p (List.mem_cons_self p rest)
      have hrest : (buildEntries metric freq deg rest).isSome :=
        ih.mpr (fun q hq => h q (List.mem_cons_of_mem p hq))
      obtain ⟨r, hr⟩ := Option.isSome_iff_exists.mp hp
      obtain ⟨es, hes⟩ := Option.isSome_iff_exists.mp hrest
      simp [buildEntries, rankEntry, hr, hes]

theorem buildRanklist_isSome_iff (metric : Metric) (freq deg : Dict)
    (phrases : List (List String)) :
    (buildRanklist metric freq deg phrases).isSome
      ↔ (buildEntries metric freq deg phrases).isSome := by
  cases h : buildEntries metric freq deg phrases <;> simp [buildRanklist, h]

/-! ## Claim theorems: ranking -/

/-- C1 counterexample: at the concrete phrase list `[["a"]]` with a
frequency table in which `a` has frequency `0`, the ranking computation
under the ratio metric does not produce a rank list with a zero
contribution for `a` — it raises (propagates) the division-by-zero fault,
modelled as `none`. -/
theorem buildRanklist_zero_frequency_cex :
    buildRanklist Metric.degreeToFrequencyRatio [] [] [["a"]] = none := rfl

/-- C1 amended: under the `DEGREE_TO_FREQUENCY_RATIO` metric, whenever
some word of some phrase has frequency `0`, the ranking computation
propagates a division-by-zero fault (`ZeroDivisionError`, modelled `none`)
instead of treating the contribution as `0`. -/
theorem buildRanklist_zero_frequency_raises (freq deg : Dict)
    (phrases : List (List String))
    (h : ∃ p ∈ phrases, ∃ w ∈ p, dictGet freq w = 0) :
    buildRanklist Metric.degreeToFrequencyRatio freq deg phrases = none := by
  obtain ⟨p, hp, w, hw, hfw⟩ := h
  rw [← Option.not_isSome_iff_eq_none, buildRanklist_isSome_iff, buildEntries_isSome_iff]
  intro hall
  have := (phraseRank_isSome_iff _ _ _ _).mp (hall p hp) w hw
  simp [wordScore, hfw] at this

/-- Witness for `buildRanklist_zero_frequency_raises`: the word `a` of the
phrase `a b` is missing from the frequency table, so ranking raises. -/
theorem buildRanklist_zero_frequency_raises_witness :
    buildRanklist Metric.degreeToFrequencyRatio [("b", 1)] [] [["a", "b"]] = none :=
  buildRanklist_zero_frequency_raises [("b", 1)] [] [["a", "b"]]
    (by decide)

/-- C3: whenever the entry-building loop completes (no fault), the
ranked entry list is exactly the `(score, joined-by-single-space)` entries
of the phrase list sorted in descending `(score, string)` order: it is a
permutation of the built entries, and pairwise ordered so that an earlier
entry has a larger score, or an equal score and a lexicographically
greater-or-equal joined string — so of two entries with equal score the
lexicographically greater string appears first. -/
theorem buildRanklist_sorted (metric : Metric) (freq deg : Dict)
    (phrases : List (List String)) (entries : List (Rat × String))
    (h : buildEntries metric freq deg phrases = some entries) :
    buildRanklist metric freq deg phrases = some (sortRankList entries) ∧
    List.Pairwise RankPairGE (sortRankList entries) ∧
    (sortRankList entries).Perm entries := by
  refine ⟨by simp [buildRanklist, h], ?_, ?_⟩
  · exact List.sorted_insertionSort RankPairGE entries
  · exact List.perm_insertionSort RankPairGE entries

/-- Witness for `buildRanklist_sorted` at a concrete input: two singleton
phrases scored `1` each under the word-frequency metric. -/
theorem buildRanklist_sorted_witness :
    buildRanklist Metric.wordFrequency [("a", 1), ("b", 1)] [] [["a"], ["b"]]
      = some (sortRankList [(1, "a"), (1, "b")]) ∧
    List.Pairwise RankPairGE (sortRankList [(1, "a"), (1, "b")]) ∧
    (sortRankList [(1, "a"), (1, "b")]).Perm [(1, "a"), (1, "b")] :=
  buildRanklist_sorted Metric.wordFrequency [("a", 1), ("b", 1)] [] [["a"], ["b"]]
    [(1, "a"), (1, "b")]
    (by norm_num [buildEntries, rankEntry, phraseRank, rankStep, wordScore, dictGet,
      joinWords, String.intercalate, String.intercalate.go])

/-! ## Claim theorems: full extraction -/

/-- C9: the method `extract_keywords_from_sentences` rebuilds every table from
scratch and never reads the previous state, so re-running it on the same
instance with the same input yields the same resulting state — identical
frequency table, degree table, ranked `(score, phrase)` list and ranked
phrase list. -/
theorem extract_idempotent (cfg : RakeConfig) (s₀ s₁ : RakeState) (sentences : List String)
    (h : extractKeywordsFromSentences cfg s₀ sentences = some s₁) :
    extractKeywordsFromSentences cfg s₁ sentences = some s₁ :=
  (rfl :
    extractKeywordsFromSentences cfg s₁ sentences
      = extractKeywordsFromSentences cfg s₀ sentences).trans h

/-- Witness for `extract_idempotent`: a concrete extraction over the empty
sentence list. -/
theorem extract_idempotent_witness :
    extractKeywordsFromSentences
      { metric := Metric.degreeToFrequencyRatio, toIgnore := [], minLength := 1,
        maxLength := 100, includeRepeatedPhrases := true, wordTokenizer := fun _ => [] }
      { frequencyDist := [], degree := [], rankList := [], rankedPhrases := [] } []
      = some { frequencyDist := [], degree := [], rankList := [], rankedPhrases := [] } :=
  extract_idempotent
    { metric := Metric.degreeToFrequencyRatio, toIgnore := [], minLength := 1,
      maxLength := 100, includeRepeatedPhrases := true, wordTokenizer := fun _ => [] }
    { frequencyDist := [("x", 3)], degree := [], rankList := [], rankedPhrases := ["x"] }
    { frequencyDist := [], degree := [], rankList := [], rankedPhrases := [] } [] rfl

/-- C5: every word occurring in a generated phrase has frequency at
least `1` in the frequency table built from that same phrase list, and
consequently a full extraction (any metric, in particular the ratio
metric's divisor) never raises: `extract_keywords_from_sentences` always
completes. -/
theorem extraction_frequency_positive (cfg : RakeConfig) (sentences : List String)
    (phraseList : List (List String))
    (hpl : phraseList = generatePhrases cfg.wordTokenizer cfg.toIgnore cfg.minLength
        cfg.maxLength cfg.includeRepeatedPhrases sentences) :
    (∀ p ∈ phraseList, ∀ w ∈ p, 1 ≤ dictGet (buildFrequencyDist phraseList) w) ∧
    ∀ prev, (extractKeywordsFromSentences cfg prev sentences).isSome := by
  have hfreq : ∀ (pl : List (List String)), ∀ p ∈ pl, ∀ w ∈ p,
      1 ≤ dictGet (buildFrequencyDist pl) w := by
    intro pl p hp w hw
    rw [dictGet_buildFrequencyDist]
    have hc : p.count w ≠ 0 := fun h0 => (List.count_eq_zero.mp h0) hw
    exact le_trans (Nat.one_le_iff_ne_zero.mpr hc)
      (List.single_le_sum (fun x _ => Nat.zero_le x) _ (List.mem_map_of_mem _ hp))
  constructor
  · exact fun p hp w hw => hfreq phraseList p hp w hw
  · intro prev
    have hbe : (buildEntries cfg.metric
        (buildFrequencyDist (generatePhrases cfg.wordTokenizer cfg.toIgnore cfg.minLength
          cfg.maxLength cfg.includeRepeatedPhrases sentences))
        (buildDegree (generatePhrases cfg.wordTokenizer cfg.toIgnore cfg.minLength
          cfg.maxLength cfg.includeRepeatedPhrases sentences))
        (generatePhrases cfg.wordTokenizer cfg.toIgnore cfg.minLength
          cfg.maxLength cfg.includeRepeatedPhrases sentences)).isSome := by
      rw [buildEntries_isSome_iff]
      intro p hp
      rw [phraseRank_isSome_iff]
      intro w hw
      have hfw := hfreq _ p hp w hw
      have hne : dictGet (buildFrequencyDist (generatePhrases cfg.wordTokenizer cfg.toIgnore
          cfg.minLength cfg.maxLength cfg.includeRepeatedPhrases sentences)) w ≠ 0 := by
        omega
      cases cfg.metric with
      | degreeToFrequencyRatio => simp [wordScore, hne]
      | wordDegree => simp [wordScore]
      | wordFrequency => simp [wordScore]
    obtain ⟨rl, hrl⟩ := Option.isSome_iff_exists.mp
      ((buildRanklist_isSome_iff _ _ _ _).mpr hbe)
    simp [extractKeywordsFromSentences, hrl]

/-- Witness for `extraction_frequency_positive`: a one-sentence extraction
with a trivial tokenizer. -/
theorem extraction_frequency_positive_witness :
    1 ≤ dictGet (buildFrequencyDist [["hello"]]) "hello" ∧
    (extractKeywordsFromSentences
      { metric := Metric.degreeToFrequencyRatio, toIgnore := [], minLength := 1,
        maxLength := 5, includeRepeatedPhrases := true, wordTokenizer := fun s => [s] }
      { frequencyDist := [], degree := [], rankList := [], rankedPhrases := [] }
      ["hello"]).isSome :=
  ⟨(extraction_frequency_positive
      { metric := Metric.degreeToFrequencyRatio, toIgnore := [], minLength := 1,
        maxLength := 5, includeRepeatedPhrases := true, wordTokenizer := fun s => [s] }
      ["hello"] [["hello"]] (by decide)).1 ["hello"] (by decide) "hello" (by decide),
   (extraction_frequency_positive
      { metric := Metric.degreeToFrequencyRatio, toIgnore := [], minLength := 1,
        maxLength := 5, includeRepeatedPhrases := true, wordTokenizer := fun s => [s] }
      ["hello"] [["hello"]] (by decide)).2
    { frequencyDist := [], degree := [], rankList := [], rankedPhrases := [] }⟩

/-! ## Claim theorems: constructor argument handling -/

/-- C8: the constructor checks `isinstance(ranking_metric, Metric)`:
any of the three `Metric` members is kept as configured, and any value that
is not a `Metric` member (of any type) silently falls back to
`DEGREE_TO_FREQUENCY_RATIO`; construction never fails. -/
theorem resolveMetric_fallback :
    (∀ (α : Type) (m : Metric), resolveMetric (MetricArg.metricVal (α := α) m) = m) ∧
    (∀ (α : Type) (a : α),
      resolveMetric (MetricArg.other a) = Metric.degreeToFrequencyRatio) :=
  ⟨fun _ _ => rfl, fun _ _ => rfl⟩

/-- C10: the constructor tests `if stopwords:` and `if punctuations:`
(Python truthiness), so an empty override set behaves exactly as an omitted
argument — the language default stopwords (resp. the default punctuation
set) are used — and only a non-empty set actually overrides the default. -/
theorem empty_set_override_falls_back :
    (∀ d : List String,
      resolveStopwords (some []) d = resolveStopwords none d ∧ resolveStopwords none d = d) ∧
    (∀ (s d : List String), s ≠ [] → resolveStopwords (some s) d = s) ∧
    (∀ d : List String,
      resolvePunctuations (some []) d = resolvePunctuations none d
        ∧ resolvePunctuations none d = d) ∧
    (∀ (s d : List String), s ≠ [] → resolvePunctuations (some s) d = s) := by
  refine ⟨fun d => ⟨rfl, rfl⟩, fun s d hs => ?_, fun d => ⟨rfl, rfl⟩, fun s d hs => ?_⟩
  · cases s with
    | nil => exact absurd rfl hs
    | cons a t => rfl
  · cases s with
    | nil => exact absurd rfl hs
    | cons a t => rfl

/-- Witness for `empty_set_override_falls_back`: concrete non-empty
overrides are kept verbatim. -/
theorem empty_set_override_falls_back_witness :
    resolveStopwords (some ["custom"]) ["the"] = ["custom"] ∧
    resolvePunctuations (some ["!"]) [";"] = ["!"] :=
  ⟨empty_set_override_falls_back.2.1 ["custom"] ["the"] (by decide),
   empty_set_override_falls_back.2.2.2 ["!"] [";"] (by decide)⟩

/-! ## Phrase extraction: structure of `groupByKey` -/

theorem mem_of_getLast?_eq {α : Type} {l : List α} {x : α} (h : l.getLast? = some x) :
    x ∈ l := by
  induction l with
  | nil => simp at h
  | cons a t ih =>
    cases t with
    | nil =>
      simp [List.getLast?] at h
      simp [h]
    | cons b t2 =>
      rw [List.getLast?_cons_cons] at h
      exact List.mem_cons_of_mem a (ih h)

theorem mem_of_head?_eq {α : Type} {l : List α} {x : α} (h : l.head? = some x) :
    x ∈ l := by
  cases l with
  | nil => simp at h
  | cons a t =>
    simp [List.head?] at h
    simp [h]

theorem groupByKey_ne_nil (f : String → Bool) (w : String) (ws : List String) :
    groupByKey f (w :: ws) ≠ [] := by
  simp only [groupByKey]
  cases h : groupByKey f ws with
  | nil => simp
  | cons kg rest =>
    obtain ⟨k, g⟩ := kg
    by_cases hf : f w = k <;> simp [hf]

theorem flatten_groupByKey (f : String → Bool) (ws : List String) :
    ((groupByKey f ws).map (fun g => g.2)).flatten = ws := by
  induction ws with
  | nil => rfl
  | cons w ws ih =>
    simp only [groupByKey]
    cases h : groupByKey f ws with
    | nil =>
      have hnil : ws = [] := by
        cases ws with
        | nil => rfl
        | cons a t => exact absurd h (groupByKey_ne_nil f a t)
      subst hnil
      simp
    | cons kg rest =>
      obtain ⟨k, g⟩ := kg
      rw [h] at ih
      simp only [List.map_cons, List.flatten_cons] at ih
      by_cases hf : f w = k
      · simp only [if_pos hf, List.map_cons, List.flatten_cons, List.cons_append]
        rw [ih]
      · simp only [if_neg hf, List.map_cons, List.flatten_cons, List.singleton_append]
        rw [ih]

theorem groupByKey_mem (f : String → Bool) (ws : List String) (k : Bool) (g : List String)
    (hm : (k, g) ∈ groupByKey f ws) : g ≠ [] ∧ ∀ x ∈ g, f x = k := by
  induction ws generalizing k g with
  | nil => simp [groupByKey] at hm
  | cons w ws ih =>
    simp only [groupByKey] at hm
    cases h : groupByKey f ws with
    | nil =>
      rw [h] at hm
      simp only [List.mem_singleton, Prod.mk.injEq] at hm
      obtain ⟨hk, hg⟩ := hm
      subst hk
      subst hg
      refine ⟨by simp, ?_⟩
      intro x hx
      rw [List.mem_singleton] at hx
      subst hx
      rfl
    | cons kg rest =>
      obtain ⟨k2, g2⟩ := kg
      rw [h] at hm
      dsimp only at hm
      by_cases hf : f w = k2
      · rw [if_pos hf] at hm
        rcases List.mem_cons.mp hm with heq | hmem
        · have hk : k2 = k := (Prod.mk.injEq _ _ _ _).mp heq.symm |>.1
          have hg : g = w :: g2 := ((Prod.mk.injEq _ _ _ _).mp heq).2
          have hhead : (k2, g2) ∈ groupByKey f ws := by
            rw [h]
            exact List.mem_cons_self _ _
          have hrec := ih k2 g2 hhead
          subst hk
          subst hg
          refine ⟨by simp, ?_⟩
          intro x hx
          rcases List.mem_cons.mp hx with rfl | hx2
          · exact hf
          · exact hrec.2 x hx2
        · exact ih k g (by rw [h]; exact List.mem_cons_of_mem _ hmem)
      · rw [if_neg hf] at hm
        rcases List.mem_cons.mp hm with heq | hmem
        · have hk : f w = k := (((Prod.mk.injEq _ _ _ _).mp heq).1).symm
          have hg : g = [w] := ((Prod.mk.injEq _ _ _ _).mp heq).2
          subst hg
          refine ⟨by simp, ?_⟩
          intro x hx
          rw [List.mem_singleton] at hx
          subst hx
          exact hk
        · exact ih k g (by rw [h]; exact hmem)

theorem groupByKey_chain (f : String → Bool) (ws : List String) :
    List.Chain' (fun a b : Bool × List String => a.1 ≠ b.1) (groupByKey f ws) := by
  induction ws with
  | nil => simp [groupByKey]
  | cons w ws ih =>
    simp only [groupByKey]
    cases h : groupByKey f ws with
    | nil => simp
    | cons kg rest =>
      obtain ⟨k2, g2⟩ := kg
      rw [h] at ih
      dsimp only
      by_cases hf : f w = k2
      · rw [if_pos hf]
        cases rest with
        | nil => simp
        | cons kg3 rest3 =>
          rw [List.chain'_cons] at ih ⊢
          exact ⟨ih.1, ih.2⟩
      · rw [if_neg hf]
        rw [List.chain'_cons]
        exact ⟨hf, ih⟩

theorem getLast?_isSome_of_ne_nil {α : Type} (l : List α) (h : l ≠ []) :
    ∃ x, l.getLast? = some x := by
  induction l with
  | nil => exact absurd rfl h
  | cons a t ih =>
    cases t with
    | nil => exact ⟨a, rfl⟩
    | cons b t2 =>
      obtain ⟨x, hx⟩ := ih (by simp)
      exact ⟨x, by rw [List.getLast?_cons_cons, hx]⟩

theorem groupByKey_true_isMaximalRun (toIgnore ws p : List String)
    (hm : (true, p) ∈ groupByKey (fun x => decide (x ∉ toIgnore)) ws) :
    IsMaximalRun toIgnore ws p := by
  set f : String → Bool := fun x => decide (x ∉ toIgnore) with hfdef
  have hjoin := flatten_groupByKey f ws
  have hchain := groupByKey_chain f ws
  have hmemp := groupByKey_mem f ws true p hm
  obtain ⟨gs₁, gs₂, hsplit⟩ := List.append_of_mem hm
  rw [hsplit] at hchain
  refine ⟨hmemp.1, ?_, ?_⟩
  · intro x hx
    have hfx := hmemp.2 x hx
    rw [hfdef] at hfx
    exact of_decide_eq_true hfx
  · refine ⟨(gs₁.map (fun g => g.2)).flatten, (gs₂.map (fun g => g.2)).flatten, ?_, ?_, ?_⟩
    · conv_lhs => rw [← hjoin, hsplit]
      simp [List.map_append, List.flatten_append]
    · rcases List.eq_nil_or_concat gs₁ with rfl | ⟨init, lastG, rfl⟩
      · left
        simp
      · right
        simp only [List.concat_eq_append] at hchain hsplit ⊢
        rw [List.chain'_append] at hchain
        have hR := hchain.2.2 lastG (by simp [List.getLast?_append]) (true, p) (by simp)
        have hk : lastG.1 = false := by
          cases hlk : lastG.1
          · rfl
          · rw [hlk] at hR
            exact absurd rfl hR
        have hLmem : lastG ∈ groupByKey f ws := by
          rw [hsplit]
          simp [List.mem_append]
        have hprop := groupByKey_mem f ws lastG.1 lastG.2 hLmem
        obtain ⟨x, hxl⟩ := getLast?_isSome_of_ne_nil lastG.2 hprop.1
        refine ⟨x, ?_, ?_⟩
        · simp only [List.map_append, List.flatten_append, List.map_cons, List.map_nil,
            List.flatten_cons, List.flatten_nil, List.append_nil]
          rw [List.getLast?_append, hxl]
          rfl
        · have hxmem : x ∈ lastG.2 := mem_of_getLast?_eq hxl
          have hfx := hprop.2 x hxmem
          rw [hk, hfdef] at hfx
          simpa using hfx
    · cases gs₂ with
      | nil =>
        left
        simp
      | cons hg2 rest2 =>
        right
        rw [List.chain'_append] at hchain
        have hCh := hchain.2.1
        rw [List.chain'_cons] at hCh
        have hk : hg2.1 = false := by
          have hne := hCh.1
          cases hlk : hg2.1
          · rfl
          · rw [hlk] at hne
            exact absurd rfl hne
        have hmem2 : hg2 ∈ groupByKey f ws := by
          rw [hsplit]
          simp
        have hprop := groupByKey_mem f ws hg2.1 hg2.2 hmem2
        obtain ⟨y, hy⟩ : ∃ y, hg2.2.head? = some y := by
          cases hg : hg2.2 with
          | nil => exact absurd hg hprop.1
          | cons a t => exact ⟨a, rfl⟩
        refine ⟨y, ?_, ?_⟩
        · simp only [List.map_cons, List.flatten_cons]
          rw [List.head?_append, hy]
          rfl
        · have hymem : y ∈ hg2.2 := mem_of_head?_eq hy
          have hfy := hprop.2 y hymem
          rw [hk, hfdef] at hfy
          simpa using hfy

/-- C7: every candidate phrase produced by
`Rake._get_phrase_list_from_words` is a maximal contiguous run of tokens
not in the ignore set whose length lies in the inclusive range
`[min_length, max_length]`; and with `min_length > max_length` the
function produces zero phrases rather than an error. -/
theorem get_phrase_list_maximal_runs (toIgnore : List String) (minLength maxLength : Nat)
    (wordList : List String) :
    (∀ p ∈ getPhraseListFromWords toIgnore minLength maxLength wordList,
        minLength ≤ p.length ∧ p.length ≤ maxLength ∧ IsMaximalRun toIgnore wordList p) ∧
    (maxLength < minLength → getPhraseListFromWords toIgnore minLength maxLength wordList = []) := by
  constructor
  · intro p hp
    simp only [getPhraseListFromWords] at hp
    rcases List.mem_filter.mp hp with ⟨hp1, hlen⟩
    have hl := of_decide_eq_true hlen
    rcases List.mem_map.mp hp1 with ⟨kg, hkg, hsnd⟩
    rcases List.mem_filter.mp hkg with ⟨hgs, hk⟩
    obtain ⟨k, g⟩ := kg
    simp only at hk hsnd
    subst hk
    subst hsnd
    exact ⟨hl.1, hl.2, groupByKey_true_isMaximalRun toIgnore wordList _ hgs⟩
  · intro hlt
    simp only [getPhraseListFromWords]
    rw [List.filter_eq_nil_iff]
    intro a _
    simp only [decide_eq_true_eq]
    omega

/-- Witness for `get_phrase_list_maximal_runs`: the phrase `red` extracted
from `red the apple` with `the` ignored, and an inverted length range. -/
theorem get_phrase_list_maximal_runs_witness :
    (1 ≤ (["red"] : List String).length ∧ (["red"] : List String).length ≤ 5 ∧
      IsMaximalRun ["the"] ["red", "the", "apple"] ["red"]) ∧
    getPhraseListFromWords ["the"] 3 2 ["red", "the", "apple"] = [] :=
  ⟨(get_phrase_list_maximal_runs ["the"] 1 5 ["red", "the", "apple"]).1 ["red"] (by decide),
   (get_phrase_list_maximal_runs ["the"] 3 2 ["red", "the", "apple"]).2 (by decide)⟩

end RakeNltk
